import Mathlib

/-!
Verification of the search-and-patch core of the `mechatyper` repository
(`src/search.rs`, `src/code_cleaning.rs`, `src/lang.rs`).

Rust strings are modelled as `List Char`; byte-indexed operations
(`&line[n..]`, tree-sitter byte offsets) are modelled with explicit UTF-8
byte accounting (`Char.utf8Size`), so that the unguarded byte slice in
`apply_indentation` is a partial operation (`Option`), exactly as the Rust
code can panic there.  Files on disk are a partial map from filename to
content; a read failure is modelled by an absent file.
-/

/-- Unicode `White_Space` property, the set accepted by Rust's
`char::is_whitespace`. -/
def rustIsWhitespace (c : Char) : Bool :=
  c == ' ' || c == '\t' || c == '\n' || c.toNat == 0xB || c.toNat == 0xC ||
  c == '\r' || c.toNat == 0x85 || c.toNat == 0xA0 || c.toNat == 0x1680 ||
  (0x2000 ≤ c.toNat && c.toNat ≤ 0x200A) ||
  c.toNat == 0x2028 || c.toNat == 0x2029 || c.toNat == 0x202F ||
  c.toNat == 0x205F || c.toNat == 0x3000

/-- `line.trim().is_empty()` in Rust: the line is empty or all whitespace. -/
def isBlank (l : List Char) : Bool := l.all rustIsWhitespace

/-- Split a character list at every newline; a list with `n` newlines yields
`n + 1` fragments. -/
def splitOnNl : List Char → List (List Char)
  | [] => [[]]
  | c :: rest =>
    if c = '\n' then [] :: splitOnNl rest
    else
      match splitOnNl rest with
      | [] => [[c]]
      | l :: ls => (c :: l) :: ls

/-- Remove one trailing carriage return, as Rust's `str::lines` does for
fragments that were terminated by a newline. -/
def stripCR (l : List Char) : List Char :=
  if l.getLast? = some '\r' then l.dropLast else l

/-- Rust `str::lines`: split at `'\n'`, drop the final fragment when it is
empty (optional final line ending), and strip one `'\r'` from every fragment
that was newline-terminated (the unterminated last fragment keeps its
`'\r'`). -/
def rustLines (s : List Char) : List (List Char) :=
  let ps := splitOnNl s
  ps.dropLast.map stripCR ++
    (if ps.getLast? = some [] then [] else ps.getLast?.toList)

/-- `Vec::join("\n")`. -/
def joinNl : List (List Char) → List Char
  | [] => []
  | [l] => l
  | l :: ls => l ++ '\n' :: joinNl ls

/-- The file content produced by `writeln!(file, "{}", line)` for each line:
every line is followed by one newline. -/
def writeLines : List (List Char) → List Char
  | [] => []
  | l :: ls => l ++ '\n' :: writeLines ls

/-- Rust byte slice `&line[n..]` on a UTF-8 string, as a partial operation:
`none` models the panic when `n` overshoots the line or falls inside a
multi-byte character. -/
def byteSliceFrom : List Char → Nat → Option (List Char)
  | l, 0 => some l
  | [], _ + 1 => none
  | c :: rest, n + 1 =>
    if c.utf8Size ≤ n + 1 then byteSliceFrom rest (n + 1 - c.utf8Size) else none

/-- `if indented_code.ends_with('\n') { indented_code } else { indented_code + "\n" }`. -/
def ensureTrailingNl (l : List Char) : List Char :=
  if l.getLast? = some '\n' then l else l ++ ['\n']

/-- The `old_indentation` computation of `apply_indentation`: the leading
whitespace run of the first non-blank line, empty if there is none. -/
def oldIndentOf (ls : List (List Char)) : List Char :=
  (((ls.filter (fun l => !isBlank l)).map
      (fun l => l.takeWhile rustIsWhitespace)).head?).getD []

/-- The `new_indentation_count` computation of `apply_indentation`: the
minimum leading-whitespace character count over the non-blank lines, 0 if
there is none. -/
def minIndentOf (ls : List (List Char)) : Nat :=
  ((((ls.filter (fun l => !isBlank l)).map
      (fun l => (l.takeWhile rustIsWhitespace).length)).min?)).getD 0

/-- The per-line map of `apply_indentation`: blank lines unchanged,
other lines re-indented via the (fallible) byte slice. -/
def indentLines (oldInd : List Char) (cnt : Nat) :
    List (List Char) → Option (List (List Char))
  | [] => some []
  | line :: rest =>
    match (if isBlank line then some line
           else Option.map (fun r => oldInd ++ r) (byteSliceFrom line cnt)),
          indentLines oldInd cnt rest with
    | some l, some ls => some (l :: ls)
    | _, _ => none

/-- `apply_indentation` from `src/search.rs` (lines 164-207).  Returns
`none` exactly when the unguarded slice `&line[new_indentation_count..]`
would panic. -/
def Search.apply_indentation (old_code new_code : List Char) : Option (List Char) :=
  let old_code_lines := rustLines old_code
  let new_code_lines := rustLines new_code
  let old_indentation := oldIndentOf old_code_lines
  let new_indentation_count := minIndentOf new_code_lines
  match indentLines old_indentation new_indentation_count new_code_lines with
  | none => none
  | some mapped => some (ensureTrailingNl (joinNl mapped))

/-- `apply_indentation` from `src/code_cleaning.rs` (lines 1-44); the Rust
source is textually identical to the copy in `src/search.rs`. -/
def CodeCleaning.apply_indentation (old_code new_code : List Char) : Option (List Char) :=
  let old_code_lines := rustLines old_code
  let new_code_lines := rustLines new_code
  let old_indentation := oldIndentOf old_code_lines
  let new_indentation_count := minIndentOf new_code_lines
  match indentLines old_indentation new_indentation_count new_code_lines with
  | none => none
  | some mapped => some (ensureTrailingNl (joinNl mapped))

/-! ## Data model (`src/search.rs` lines 13-27) -/

/-- `ItemDef` from `src/search.rs`: one located structural unit. -/
structure ItemDef where
  definition : List Char
  start_pos : Nat
  end_pos : Nat
  start_byte : Nat
  end_byte : Nat
  filename : List Char
deriving DecidableEq, Repr

/-- `ItemChange` from `src/search.rs`: an extracted item paired with its raw
replacement text. -/
structure ItemChange where
  before : ItemDef
  after : List Char
deriving DecidableEq, Repr

/-! ## Item extractor (`src/search.rs` lines 76-139)

Parsing and query execution are done by the external `tree_sitter` crate;
the extractor consumes the query's capture names, the name → capture-index
map, and the per-match capture lists, and the in-repository code (lines
89-134) turns each resolved capture into an `ItemDef`.  Those parser
outputs are therefore inputs of the model. -/

/-- One capture of a query match, as reported by tree-sitter: capture index
plus the node's byte span and row span.  Positions are indices into the
source (at character boundaries, as tree-sitter guarantees for valid
UTF-8). -/
structure QueryCapture where
  index : Nat
  startByte : Nat
  endByte : Nat
  startRow : Nat
  endRow : Nat
deriving DecidableEq, Repr

/-- One query match: its list of captures. -/
structure QueryMatch where
  captures : List QueryCapture
deriving DecidableEq, Repr

/-- The query interface used by the extractor: `capture_names()` and
`capture_index_for_name`. -/
structure QueryData where
  captureNames : List String
  captureIndexForName : String → Option Nat

/-- Index (position) of the last `'\n'` of a character list, if any:
Rust `source_code[..start_byte].rfind('\n')`. -/
def rfindNl : List Char → Option Nat
  | [] => none
  | c :: rest =>
    match rfindNl rest with
    | some p => some (p + 1)
    | none => if c = '\n' then some 0 else none

/-- `source_code[..start_byte].rfind('\n').map(|pos| pos + 1).unwrap_or(0)`:
the byte offset of the start of the line containing position `b`. -/
def lineStartByte (source : List Char) (b : Nat) : Nat :=
  match rfindNl (source.take b) with
  | some p => p + 1
  | none => 0

/-- Lines 116-133 of `src/search.rs`: build the `ItemDef` for a captured
node, extending the start of the byte range backward to the beginning of
its containing line, and recording the parser's row numbers unchanged. -/
def mkItemDef (source filename : List Char) (nodeStart nodeEnd startRow endRow : Nat) :
    ItemDef :=
  { definition := (source.take nodeEnd).drop (lineStartByte source nodeStart)
    start_pos := startRow
    end_pos := endRow
    start_byte := lineStartByte source nodeStart
    end_byte := nodeEnd
    filename := filename }

/-- `node.utf8_text(source_code.as_bytes())`: resolve a captured node's
range within the source text; fails when the range does not fit the
source. -/
def resolveText (source : List Char) (c : QueryCapture) : Option (List Char) :=
  if c.startByte ≤ c.endByte ∧ c.endByte ≤ source.length then
    some ((source.take c.endByte).drop c.startByte)
  else none

/-- The inner `for name in capture_names` loop of `extract_sexpr_from_string`
for one match: bail if a capture name has no index, silently `continue` if
the match has no capture with that index, bail if the node's text cannot be
resolved, otherwise record the `ItemDef`. -/
def processNames (source filename : List Char) (q : QueryData) (m : QueryMatch) :
    List String → Except String (List ItemDef)
  | [] => .ok []
  | name :: rest =>
    match q.captureIndexForName name with
    | none =>
      .error ("Error while querying source code. Capture name: " ++ name ++
        " has no index associated.")
    | some index =>
      match m.captures.find? (fun c => c.index == index) with
      | none => processNames source filename q m rest
      | some node =>
        match resolveText source node with
        | none =>
          .error ("Cannot match query result indices with source code for capture name: " ++
            name ++ ".")
        | some _ =>
          match processNames source filename q m rest with
          | .error e => .error e
          | .ok items =>
            .ok (mkItemDef source filename node.startByte node.endByte
                  node.startRow node.endRow :: items)

/-- The outer `for m in matches` loop of `extract_sexpr_from_string`. -/
def processMatches (source filename : List Char) (q : QueryData) :
    List QueryMatch → Except String (List ItemDef)
  | [] => .ok []
  | m :: ms =>
    match processNames source filename q m q.captureNames with
    | .error e => .error e
    | .ok items =>
      match processMatches source filename q ms with
      | .error e => .error e
      | .ok rest => .ok (items ++ rest)

/-- `extract_sexpr_from_string` (lines 76-139 of `src/search.rs`), given the
parser's query data and matches for the file. -/
def extract_sexpr_from_string (source filename : List Char) (q : QueryData)
    (ms : List QueryMatch) : Except String (List ItemDef) :=
  processMatches source filename q ms

/-! ## Patch applier (`src/search.rs` lines 209-254) -/

/-- The on-disk state: filename → file content; an absent file models a
read that fails with an I/O error. -/
def FS : Type := List Char → Option (List Char)

/-- Overwrite one file. -/
def updateFS (fs : FS) (name content : List Char) : FS :=
  fun n => if n = name then some content else fs n

/-- Stable insertion of one change into a list sorted by `start_pos`
descending. -/
def insertByStartDesc (c : ItemChange) : List ItemChange → List ItemChange
  | [] => [c]
  | x :: xs =>
    if c.before.start_pos < x.before.start_pos then x :: insertByStartDesc c xs
    else c :: x :: xs

/-- `changes.sort_by(|a, b| b.before.start_pos.cmp(&a.before.start_pos))`:
stable sort by `start_pos` descending. -/
def sortByStartDesc : List ItemChange → List ItemChange
  | [] => []
  | c :: cs => insertByStartDesc c (sortByStartDesc cs)

/-- `lines.splice(start..=end, replacement)`: replace the inclusive line
range with the replacement lines. -/
def spliceLines (lines : List (List Char)) (s e : Nat) (repl : List (List Char)) :
    List (List Char) :=
  lines.take s ++ repl ++ lines.drop (e + 1)

/-- The `for change in changes` loop of `apply_changes`: each change is
applied only if `start_line <= end_line && end_line < lines.len()` holds for
the current line buffer; `none` models the panic inside
`apply_indentation`. -/
def applySorted : List ItemChange → List (List Char) → Option (List (List Char))
  | [], lines => some lines
  | change :: rest, lines =>
    if change.before.start_pos ≤ change.before.end_pos ∧
        change.before.end_pos < lines.length then
      match Search.apply_indentation change.before.definition change.after with
      | none => none
      | some indented =>
        applySorted rest
          (spliceLines lines change.before.start_pos change.before.end_pos
            (rustLines indented))
    else applySorted rest lines

/-- Per-file body of `apply_changes`: split the (freshly read) content into
lines, sort the file's changes by `start_pos` descending, apply them, and
produce the bytes written back (`writeln!` per line). -/
def applyChangesToFile (contents : List Char) (chs : List ItemChange) :
    Option (List Char) :=
  match applySorted (sortByStartDesc chs) (rustLines contents) with
  | none => none
  | some finalLines => some (writeLines finalLines)

/-- Append a change to its filename's group, keeping first-occurrence group
order (a concrete stand-in for the `HashMap` iteration order, which Rust
leaves unspecified). -/
def addToGroup (name : List Char) (c : ItemChange) :
    List (List Char × List ItemChange) → List (List Char × List ItemChange)
  | [] => [(name, [c])]
  | (n, cs) :: rest =>
    if n = name then (n, cs ++ [c]) :: rest else (n, cs) :: addToGroup name c rest

/-- `changes_by_file`: partition the changes by `before.filename`. -/
def groupByFilename (changes : List ItemChange) :
    List (List Char × List ItemChange) :=
  changes.foldl (fun acc c => addToGroup c.before.filename c acc) []

/-- How a run of `apply_changes` ends early: a failed file read (the `?` on
`fs::read_to_string`), or the panic inside `apply_indentation`. -/
inductive ApplyError where
  | ioError (filename : List Char)
  | panic
deriving DecidableEq, Repr

/-- The `for (file_path, changes) in changes_by_file` loop of
`apply_changes`: read each file, apply its changes, write it back; a read
failure propagates immediately (`?`), leaving earlier writes in place and
later groups unprocessed. -/
def applyGroups : List (List Char × List ItemChange) → FS → FS × Option ApplyError
  | [], fs => (fs, none)
  | (name, chs) :: rest, fs =>
    match fs name with
    | none => (fs, some (ApplyError.ioError name))
    | some contents =>
      match applyChangesToFile contents chs with
      | none => (fs, some ApplyError.panic)
      | some newContents => applyGroups rest (updateFS fs name newContents)

/-- `apply_changes` (lines 209-254 of `src/search.rs`). -/
def apply_changes (changes : List ItemChange) (fs : FS) : FS × Option ApplyError :=
  applyGroups (groupByFilename changes) fs

/-! ## Grammar registry (`src/lang.rs`) -/

/-- `ProgLanguage` from `src/lang.rs`. -/
inductive ProgLanguage where
  | Python
  | Rust
deriving DecidableEq, Repr

/-- `PythonProgItem` from `src/lang.rs`: the Python item kinds the registry
actually supports. -/
inductive PythonProgItem where
  | Function
  | Class
deriving DecidableEq, Repr

/-- `RustProgItem` from `src/lang.rs`: the Rust item kinds the registry
actually supports. -/
inductive RustProgItem where
  | Function
  | Struct
  | Enum
deriving DecidableEq, Repr

/-- `ProgItem` from `src/lang.rs`. -/
inductive ProgItem where
  | Rust (item : RustProgItem)
  | Python (item : PythonProgItem)
deriving DecidableEq, Repr

/-- A tree-sitter grammar handle (`tree_sitter::Language`), abstract. -/
inductive Grammar where
  | python
  | rust
deriving DecidableEq, Repr

/-- `ProgLanguage::tree_sitter_language`. -/
def ProgLanguage.tree_sitter_language : ProgLanguage → Grammar
  | .Python => .python
  | .Rust => .rust

/-- `ProgItem::to_sexpr` (lines 129-143 of `src/lang.rs`): the structural
query pattern for each supported (language, item-kind) pair. -/
def ProgItem.to_sexpr : ProgItem → String
  | .Python .Function => "(function_definition) @item"
  | .Python .Class => "(class_definition) @item"
  | .Rust .Struct => "(struct_item) @item"
  | .Rust .Enum => "(enum_item) @item"
  | .Rust .Function => "(function_item) @item"

/-- `LanguageItem` from `src/lang.rs` (lines 35-52), the string-keyed view
of the supported (language, item-kind) pairs. -/
inductive LanguageItem where
  | Python (item : PythonProgItem)
  | Rust (item : RustProgItem)
deriving DecidableEq, Repr

/-- `impl FromStr for LanguageItem` (lines 54-67 of `src/lang.rs`):
parsing a `(language, item-kind)` name; unsupported combinations produce an
error (`anyhow!("Cannot parse {}", s)`). -/
def LanguageItem.from_str (s : String) : Except String LanguageItem :=
  match s with
  | "Python.Function" => .ok (.Python .Function)
  | "Python.Class" => .ok (.Python .Class)
  | "Rust.Struct" => .ok (.Rust .Struct)
  | "Rust.Enum" => .ok (.Rust .Enum)
  | "Rust.Function" => .ok (.Rust .Function)
  | _ => .error ("Cannot parse " ++ s)

/-- Whether an extraction result is an error. -/
def isErrorResult {α : Type} : Except String α → Bool
  | .error _ => true
  | .ok _ => false

/-- Number of newline characters before a position: the parser's row number
of a byte offset. -/
def countNl (l : List Char) : Nat := l.count '\n'

example :
    Search.apply_indentation "    def old():\n        pass\n".toList
      "def new():\n    pass\n".toList
      = some "    def new():\n        pass\n".toList := by decide

example :
    Search.apply_indentation ['x'] ['a', '\n', '\n', '\n']
      = some ['a', '\n', '\n'] := by decide

example :
    (apply_changes
      [{ before :=
          { definition := "fn example() \x7b\n    println!(\"Hello, world!\");\n\x7d\n".toList
            start_pos := 0, end_pos := 2, start_byte := 0, end_byte := 48
            filename := "test_file.rs".toList }
         after := "fn modified_example() \x7b\n    println!(\"Hello, ChatGPT!\");\n\x7d\n".toList }]
      (fun n => if n = "test_file.rs".toList
        then some "fn example() \x7b\n    println!(\"Hello, world!\");\n\x7d\n".toList
        else none)).1 "test_file.rs".toList
      = some "fn modified_example() \x7b\n    println!(\"Hello, ChatGPT!\");\n\x7d\n".toList := by
  decide

/-! ## Structural lemmas about the line model -/

theorem splitOnNl_ne_nil (s : List Char) : splitOnNl s ≠ [] := by
  cases s with
  | nil => simp [splitOnNl]
  | cons c rest =>
    simp only [splitOnNl]
    split
    · simp
    · split <;> simp

theorem splitOnNl_of_no_nl {l : List Char} (h : '\n' ∉ l) : splitOnNl l = [l] := by
  induction l with
  | nil => rfl
  | cons c rest ih =>
    have hc : ¬ c = '\n' := fun hc => h (hc ▸ List.mem_cons_self c rest)
    have hr : '\n' ∉ rest := fun hr => h (List.mem_cons_of_mem c hr)
    simp only [splitOnNl, if_neg hc, ih hr]

theorem splitOnNl_append {l s : List Char} (h : '\n' ∉ l) :
    splitOnNl (l ++ '\n' :: s) = l :: splitOnNl s := by
  induction l with
  | nil => simp [splitOnNl]
  | cons c rest ih =>
    have hc : ¬ c = '\n' := fun hc => h (hc ▸ List.mem_cons_self c rest)
    have hr : '\n' ∉ rest := fun hr => h (List.mem_cons_of_mem c hr)
    simp only [List.cons_append, splitOnNl, if_neg hc, List.append_eq]
    rw [ih hr]

theorem mem_of_getLast?_eq {α : Type} {l : List α} {x : α}
    (h : l.getLast? = some x) : x ∈ l := by
  rcases List.mem_getLast?_eq_getLast h with ⟨hne, rfl⟩
  exact List.getLast_mem hne

theorem stripCR_eq_self {l : List Char} (h : '\r' ∉ l) : stripCR l = l := by
  unfold stripCR
  split
  · next hl =>
    exact absurd (mem_of_getLast?_eq hl) h
  · rfl

theorem rustLines_cons {l : List Char} (s : List Char) (h : '\n' ∉ l) :
    rustLines (l ++ '\n' :: s) = stripCR l :: rustLines s := by
  unfold rustLines
  rw [splitOnNl_append h]
  cases hsp : splitOnNl s with
  | nil => exact absurd hsp (splitOnNl_ne_nil s)
  | cons p ps =>
    simp only [List.dropLast_cons₂, List.map_cons, List.getLast?_cons_cons,
      List.cons_append]

theorem rustLines_nil : rustLines [] = [] := by decide

theorem splitOnNl_chars {s : List Char} :
    ∀ l ∈ splitOnNl s, ∀ c ∈ l, c ∈ s ∧ c ≠ '\n' := by
  induction s with
  | nil =>
    intro l hl c hc
    simp [splitOnNl] at hl
    subst hl
    simp at hc
  | cons d rest ih =>
    intro l hl c hc
    by_cases hd : d = '\n'
    · subst hd
      simp only [splitOnNl, if_pos rfl] at hl
      rcases List.mem_cons.mp hl with h1 | h1
      · subst h1; simp at hc
      · rcases ih l h1 c hc with ⟨h2, h3⟩
        exact ⟨List.mem_cons_of_mem _ h2, h3⟩
    · simp only [splitOnNl, if_neg hd] at hl
      cases hsp : splitOnNl rest with
      | nil => exact absurd hsp (splitOnNl_ne_nil rest)
      | cons p ps =>
        rw [hsp] at hl
        rcases List.mem_cons.mp hl with h1 | h1
        · subst h1
          rcases List.mem_cons.mp hc with h2 | h2
          · subst h2; exact ⟨List.mem_cons_self _ _, hd⟩
          · have hp : p ∈ splitOnNl rest := by rw [hsp]; exact List.mem_cons_self _ _
            rcases ih p hp c h2 with ⟨h3, h4⟩
            exact ⟨List.mem_cons_of_mem _ h3, h4⟩
        · have hp : l ∈ splitOnNl rest := by
            rw [hsp]; exact List.mem_cons_of_mem _ h1
          rcases ih l hp c hc with ⟨h3, h4⟩
          exact ⟨List.mem_cons_of_mem _ h3, h4⟩

theorem mem_stripCR {l : List Char} {c : Char} (h : c ∈ stripCR l) : c ∈ l := by
  unfold stripCR at h
  split at h
  · exact List.dropLast_subset l h
  · exact h

theorem rustLines_chars {s : List Char} :
    ∀ l ∈ rustLines s, ∀ c ∈ l, c ∈ s ∧ c ≠ '\n' := by
  intro l hl c hc
  unfold rustLines at hl
  rcases List.mem_append.mp hl with h1 | h1
  · rcases List.mem_map.mp h1 with ⟨p, hp, rfl⟩
    exact splitOnNl_chars p (List.dropLast_subset _ hp) c (mem_stripCR hc)
  · split at h1
    · simp at h1
    · cases hgl : (splitOnNl s).getLast? with
      | none => rw [hgl] at h1; simp [Option.toList] at h1
      | some p =>
        rw [hgl] at h1
        simp only [Option.toList_some, List.mem_singleton] at h1
        subst h1
        exact splitOnNl_chars l (mem_of_getLast?_eq hgl) c hc

theorem joinNl_nil : joinNl [] = [] := rfl

theorem joinNl_single (l : List Char) : joinNl [l] = l := rfl

theorem joinNl_cons_cons (l p : List Char) (ps : List (List Char)) :
    joinNl (l :: p :: ps) = l ++ '\n' :: joinNl (p :: ps) := rfl

theorem writeLines_cons (l : List Char) (ls : List (List Char)) :
    writeLines (l :: ls) = l ++ '\n' :: writeLines ls := rfl

theorem joinNl_concat_nil {init : List (List Char)} (h : init ≠ []) :
    joinNl (init ++ [[]]) = joinNl init ++ ['\n'] := by
  induction init with
  | nil => exact absurd rfl h
  | cons l rest ih =>
    cases rest with
    | nil => rfl
    | cons p ps =>
      have : joinNl ((l :: p :: ps) ++ [[]]) = l ++ '\n' :: joinNl ((p :: ps) ++ [[]]) := rfl
      rw [this, ih (List.cons_ne_nil p ps), joinNl_cons_cons]
      simp

theorem joinNl_getLast {ls : List (List Char)} {ll : List Char}
    (hl : ls.getLast? = some ll) (hne : ll ≠ [])
    (hch : ∀ l ∈ ls, '\n' ∉ l) :
    (joinNl ls).getLast? = ll.getLast? := by
  induction ls with
  | nil => simp at hl
  | cons l rest ih =>
    cases rest with
    | nil =>
      simp only [List.getLast?_singleton, Option.some.injEq] at hl
      rw [joinNl_single, hl]
    | cons p ps =>
      rw [List.getLast?_cons_cons] at hl
      have hr := ih hl (fun x hx => hch x (List.mem_cons_of_mem l hx))
      rw [joinNl_cons_cons, List.getLast?_append_cons]
      cases hj : joinNl (p :: ps) with
      | nil =>
        rw [hj, List.getLast?_nil] at hr
        exact absurd (List.getLast?_eq_none_iff.mp hr.symm) hne
      | cons d t =>
        rw [hj] at hr
        rw [List.getLast?_cons_cons]
        exact hr

theorem ensureTrailingNl_of_ne_nl {l : List Char} (h : l.getLast? ≠ some '\n') :
    ensureTrailingNl l = l ++ ['\n'] := by
  unfold ensureTrailingNl
  exact if_neg h

theorem rustLines_joinNl_concat_nl {ls : List (List Char)} (hne : ls ≠ [])
    (hch : ∀ l ∈ ls, '\n' ∉ l ∧ stripCR l = l) :
    rustLines (joinNl ls ++ ['\n']) = ls := by
  induction ls with
  | nil => exact absurd rfl hne
  | cons l rest ih =>
    cases rest with
    | nil =>
      have h1 : joinNl [l] ++ ['\n'] = l ++ '\n' :: [] := rfl
      rw [h1, rustLines_cons [] (hch l (List.mem_cons_self l [])).1, rustLines_nil,
        (hch l (List.mem_cons_self l [])).2]
    | cons p ps =>
      have h1 : joinNl (l :: p :: ps) ++ ['\n'] = l ++ '\n' :: (joinNl (p :: ps) ++ ['\n']) := by
        rw [joinNl_cons_cons]; simp
      rw [h1, rustLines_cons _ (hch l (List.mem_cons_self l _)).1,
        (hch l (List.mem_cons_self l _)).2,
        ih (List.cons_ne_nil p ps) (fun x hx => hch x (List.mem_cons_of_mem l hx))]

theorem rustLines_joinNl {ls : List (List Char)} (hne : ls ≠ [])
    (hlast : ls.getLast? ≠ some [])
    (hch : ∀ l ∈ ls, '\n' ∉ l ∧ stripCR l = l) :
    rustLines (joinNl ls) = ls := by
  induction ls with
  | nil => exact absurd rfl hne
  | cons l rest ih =>
    cases rest with
    | nil =>
      rw [joinNl_single]
      have hl := (hch l (List.mem_cons_self l [])).1
      have hlne : l ≠ [] := by
        intro h; rw [h] at hlast; exact hlast rfl
      unfold rustLines
      rw [splitOnNl_of_no_nl hl]
      simp only [List.dropLast_single, List.map_nil, List.getLast?_singleton,
        List.nil_append]
      rw [if_neg (by simpa using hlne)]
      rfl
    | cons p ps =>
      rw [List.getLast?_cons_cons] at hlast
      rw [joinNl_cons_cons, rustLines_cons _ (hch l (List.mem_cons_self l _)).1,
        (hch l (List.mem_cons_self l _)).2,
        ih (List.cons_ne_nil p ps) hlast (fun x hx => hch x (List.mem_cons_of_mem l hx))]

theorem rustLines_ensure_joinNl {ls : List (List Char)} (hne : ls ≠ [])
    (hch : ∀ l ∈ ls, '\n' ∉ l ∧ stripCR l = l) :
    rustLines (ensureTrailingNl (joinNl ls)) = ls ∨
      (ls.getLast? = some [] ∧
        rustLines (ensureTrailingNl (joinNl ls)) = ls.dropLast) := by
  by_cases hlast : ls.getLast? = some []
  · rcases List.mem_getLast?_eq_getLast hlast with ⟨h1, h2⟩
    by_cases hinit : ls.dropLast = []
    · left
      have hls : ls = [[]] := by
        cases ls with
        | nil => exact absurd rfl hne
        | cons a rest =>
          cases rest with
          | nil =>
            simp only [List.getLast?_singleton, Option.some.injEq] at hlast
            rw [hlast]
          | cons b t => simp [List.dropLast_cons₂] at hinit
      subst hls
      decide
    · right
      refine ⟨hlast, ?_⟩
      have hdecomp : ls = ls.dropLast ++ [[]] := by
        conv_lhs => rw [← List.dropLast_append_getLast hne]
        rw [← h2]
      rw [hdecomp, joinNl_concat_nil hinit]
      rw [List.dropLast_concat]
      have hend : (joinNl ls.dropLast ++ ['\n']).getLast? = some '\n' :=
        List.getLast?_concat _
      unfold ensureTrailingNl
      rw [if_pos hend]
      exact rustLines_joinNl_concat_nl hinit
        (fun x hx => hch x (by rw [hdecomp]; exact List.mem_append_left _ hx))
  · left
    have hll : ∃ ll, ls.getLast? = some ll ∧ ll ≠ [] := by
      cases hgl : ls.getLast? with
      | none => exact absurd (List.getLast?_eq_none_iff.mp hgl) hne
      | some ll =>
        refine ⟨ll, rfl, ?_⟩
        intro h; rw [h] at hgl; exact hlast hgl
    rcases hll with ⟨ll, hgl, hllne⟩
    have hj := joinNl_getLast hgl hllne (fun x hx => (hch x hx).1)
    have hnl : (joinNl ls).getLast? ≠ some '\n' := by
      rw [hj]
      intro hcon
      exact ((hch ll (mem_of_getLast?_eq hgl)).1) (mem_of_getLast?_eq hcon)
    rw [ensureTrailingNl_of_ne_nl hnl]
    exact rustLines_joinNl_concat_nl hne hch

theorem exists_line_decomp {s : List Char} (h : '\n' ∈ s) :
    ∃ l r, s = l ++ '\n' :: r ∧ '\n' ∉ l := by
  induction s with
  | nil => simp at h
  | cons c rest ih =>
    by_cases hc : c = '\n'
    · subst hc
      exact ⟨[], rest, rfl, by simp⟩
    · have hr : '\n' ∈ rest := by
        rcases List.mem_cons.mp h with h1 | h1
        · exact absurd h1.symm hc
        · exact h1
      rcases ih hr with ⟨l, r, heq, hlnl⟩
      refine ⟨c :: l, r, by rw [heq]; rfl, ?_⟩
      intro hmem
      rcases List.mem_cons.mp hmem with h1 | h1
      · exact hc h1.symm
      · exact hlnl h1

theorem writeLines_rustLines (s : List Char) (hcr : '\r' ∉ s)
    (hend : s.getLast? = some '\n') : writeLines (rustLines s) = s := by
  suffices H : ∀ n (s : List Char), s.length ≤ n → '\r' ∉ s →
      s.getLast? = some '\n' → writeLines (rustLines s) = s from
    H s.length s le_rfl hcr hend
  intro n
  induction n with
  | zero =>
    intro s hlen hcr hend
    have hs : s = [] := List.length_eq_zero.mp (Nat.le_zero.mp hlen)
    subst hs
    simp at hend
  | succ n ih =>
    intro s hlen hcr hend
    have hnl : '\n' ∈ s := mem_of_getLast?_eq hend
    rcases exists_line_decomp hnl with ⟨l, r, heq, hlnl⟩
    subst heq
    have hcrl : '\r' ∉ l := fun hm => hcr (List.mem_append_left _ hm)
    cases r with
    | nil =>
      rw [rustLines_cons [] hlnl, rustLines_nil, stripCR_eq_self hcrl,
        writeLines_cons]
      rfl
    | cons d t =>
      have hendr : (d :: t).getLast? = some '\n' := by
        rw [List.getLast?_append_cons, List.getLast?_cons_cons] at hend
        rw [← List.getLast?_cons_cons (a := '\n')] at hend
        rwa [List.getLast?_cons_cons] at hend
      have hcrr : '\r' ∉ d :: t := fun hm =>
        hcr (List.mem_append_right _ (List.mem_cons_of_mem '\n' hm))
      have hlenr : (d :: t).length ≤ n := by
        have := List.length_append l ('\n' :: (d :: t))
        simp only [List.length_cons] at this hlen ⊢
        omega
      rw [rustLines_cons _ hlnl, stripCR_eq_self hcrl, writeLines_cons,
        ih _ hlenr hcrr hendr]

theorem spliceLines_self {ls : List (List Char)} {s e : Nat} (hse : s ≤ e)
    (_he : e < ls.length) :
    spliceLines ls s e ((ls.drop s).take (e + 1 - s)) = ls := by
  unfold spliceLines
  have h2 : (ls.drop s).drop (e + 1 - s) = ls.drop (e + 1) := by
    rw [List.drop_drop]
    congr 1
    omega
  rw [List.append_assoc]
  calc ls.take s ++ ((ls.drop s).take (e + 1 - s) ++ ls.drop (e + 1))
      = ls.take s ++ ((ls.drop s).take (e + 1 - s) ++ (ls.drop s).drop (e + 1 - s)) := by
        rw [h2]
    _ = ls.take s ++ ls.drop s := by rw [List.take_append_drop]
    _ = ls := List.take_append_drop s ls

theorem byteSliceFrom_eq_drop {l : List Char} {n : Nat} (hlen : n ≤ l.length)
    (h1 : ∀ c ∈ l.take n, c.utf8Size = 1) :
    byteSliceFrom l n = some (l.drop n) := by
  induction l generalizing n with
  | nil =>
    have : n = 0 := Nat.le_zero.mp (by simpa using hlen)
    subst this
    rfl
  | cons c rest ih =>
    cases n with
    | zero => rfl
    | succ m =>
      have hc : c.utf8Size = 1 := h1 c (by simp)
      simp only [byteSliceFrom, hc]
      rw [if_pos (by omega : (1 : Nat) ≤ m + 1)]
      have hm : m + 1 - 1 = m := rfl
      rw [hm, List.drop_succ_cons]
      exact ih (by simpa using hlen)
        (fun x hx => h1 x (by
          rw [List.take_succ_cons]
          exact List.mem_cons_of_mem c hx))

theorem minIndentOf_le {ls : List (List Char)} {l : List Char} (hm : l ∈ ls)
    (hnb : isBlank l = false) :
    minIndentOf ls ≤ (l.takeWhile rustIsWhitespace).length := by
  unfold minIndentOf
  have hf : l ∈ ls.filter (fun l => !isBlank l) :=
    List.mem_filter.mpr ⟨hm, by rw [hnb]; rfl⟩
  have hmem : (l.takeWhile rustIsWhitespace).length ∈
      (ls.filter (fun l => !isBlank l)).map
        (fun l => (l.takeWhile rustIsWhitespace).length) :=
    List.mem_map_of_mem _ hf
  cases hmin : ((ls.filter (fun l => !isBlank l)).map
      (fun l => (l.takeWhile rustIsWhitespace).length)).min? with
  | none =>
    rw [List.min?_eq_none_iff] at hmin
    rw [hmin] at hmem
    simp at hmem
  | some m =>
    simp only [Option.getD_some]
    exact (List.min?_eq_some_iff'.mp hmin).2 _ hmem

theorem byteSlice_ok_of_ascii {ls : List (List Char)}
    (hws : ∀ l ∈ ls, ∀ c ∈ l.takeWhile rustIsWhitespace, c.utf8Size = 1) :
    ∀ l ∈ ls, isBlank l = false →
      byteSliceFrom l (minIndentOf ls) = some (l.drop (minIndentOf ls)) := by
  intro l hl hnb
  have hcnt := minIndentOf_le hl hnb
  have htw : (l.takeWhile rustIsWhitespace).length ≤ l.length :=
    List.Sublist.length_le (List.takeWhile_sublist _)
  apply byteSliceFrom_eq_drop (le_trans hcnt htw)
  intro c hc
  apply hws l hl c
  have htake : l.take (minIndentOf ls) = (l.takeWhile rustIsWhitespace).take (minIndentOf ls) := by
    conv_lhs => rw [← List.takeWhile_append_dropWhile (p := rustIsWhitespace) (l := l)]
    rw [List.take_append_of_le_length hcnt]
  rw [htake] at hc
  exact List.take_subset _ _ hc

theorem indentLines_eq {W : List Char} {cnt : Nat} {ls : List (List Char)}
    (h : ∀ l ∈ ls, isBlank l = false → byteSliceFrom l cnt = some (l.drop cnt)) :
    indentLines W cnt ls =
      some (ls.map (fun l => if isBlank l then l else W ++ l.drop cnt)) := by
  induction ls with
  | nil => rfl
  | cons l rest ih =>
    have hr := ih (fun x hx => h x (List.mem_cons_of_mem l hx))
    cases hb : isBlank l with
    | true => simp [indentLines, hb, hr]
    | false => simp [indentLines, hb, hr, h l (List.mem_cons_self l rest) hb]

theorem apply_indentation_eq {old_code new_code : List Char}
    (h : ∀ l ∈ rustLines new_code, isBlank l = false →
      byteSliceFrom l (minIndentOf (rustLines new_code)) =
        some (l.drop (minIndentOf (rustLines new_code)))) :
    Search.apply_indentation old_code new_code =
      some (ensureTrailingNl (joinNl ((rustLines new_code).map
        (fun l => if isBlank l then l
          else oldIndentOf (rustLines old_code) ++
            l.drop (minIndentOf (rustLines new_code)))))) := by
  simp only [Search.apply_indentation]
  rw [indentLines_eq h]

/-! ## Sorting lemmas for the patch applier -/

theorem insertByStartDesc_perm (c : ItemChange) (l : List ItemChange) :
    (insertByStartDesc c l).Perm (c :: l) := by
  induction l with
  | nil => exact List.Perm.refl _
  | cons x xs ih =>
    unfold insertByStartDesc
    split
    · exact ((ih.cons x).trans (List.Perm.swap c x xs))
    · exact List.Perm.refl _

theorem sortByStartDesc_perm (l : List ItemChange) :
    (sortByStartDesc l).Perm l := by
  induction l with
  | nil => exact List.Perm.refl _
  | cons c cs ih =>
    exact (insertByStartDesc_perm c (sortByStartDesc cs)).trans (ih.cons c)

theorem insertByStartDesc_sorted {c : ItemChange} {l : List ItemChange}
    (h : l.Sorted (fun a b => b.before.start_pos ≤ a.before.start_pos)) :
    (insertByStartDesc c l).Sorted
      (fun a b => b.before.start_pos ≤ a.before.start_pos) := by
  induction l with
  | nil => simp [insertByStartDesc, List.Sorted]
  | cons x xs ih =>
    unfold insertByStartDesc
    split
    · next hlt =>
      rw [List.sorted_cons] at h
      rw [List.sorted_cons]
      refine ⟨?_, ih h.2⟩
      intro b hb
      have hmem := (insertByStartDesc_perm c xs).mem_iff.mp hb
      rcases List.mem_cons.mp hmem with h1 | h1
      · subst h1; omega
      · exact h.1 b h1
    · next hge =>
      rw [List.sorted_cons] at h ⊢
      refine ⟨?_, List.sorted_cons.mpr h⟩
      intro b hb
      rcases List.mem_cons.mp hb with h1 | h1
      · subst h1; omega
      · have := h.1 b h1; omega

theorem sortByStartDesc_sorted (l : List ItemChange) :
    (sortByStartDesc l).Sorted
      (fun a b => b.before.start_pos ≤ a.before.start_pos) := by
  induction l with
  | nil => simp [sortByStartDesc, List.Sorted]
  | cons c cs ih => exact insertByStartDesc_sorted ih

theorem sortByStartDesc_eq_of_perm {l₁ l₂ : List ItemChange}
    (hperm : l₁.Perm l₂)
    (hne : l₁.Pairwise (fun a b => a.before.start_pos ≠ b.before.start_pos)) :
    sortByStartDesc l₁ = sortByStartDesc l₂ := by
  have hsym : ∀ {a b : ItemChange},
      a.before.start_pos ≠ b.before.start_pos →
      b.before.start_pos ≠ a.before.start_pos := fun h => Ne.symm h
  have hne₁ : (sortByStartDesc l₁).Pairwise
      (fun a b => a.before.start_pos ≠ b.before.start_pos) :=
    ((sortByStartDesc_perm l₁).pairwise_iff hsym).mpr hne
  have hne₂ : (sortByStartDesc l₂).Pairwise
      (fun a b => a.before.start_pos ≠ b.before.start_pos) :=
    ((sortByStartDesc_perm l₂).pairwise_iff hsym).mpr
      ((hperm.pairwise_iff hsym).mp hne)
  have hs₁ : (sortByStartDesc l₁).Sorted
      (fun a b => b.before.start_pos < a.before.start_pos) := by
    have := (sortByStartDesc_sorted l₁).and hne₁
    exact this.imp (fun h => by omega)
  have hs₂ : (sortByStartDesc l₂).Sorted
      (fun a b => b.before.start_pos < a.before.start_pos) := by
    have := (sortByStartDesc_sorted l₂).and hne₂
    exact this.imp (fun h => by omega)
  have hp : (sortByStartDesc l₁).Perm (sortByStartDesc l₂) :=
    ((sortByStartDesc_perm l₁).trans hperm).trans (sortByStartDesc_perm l₂).symm
  haveI : IsAntisymm ItemChange
      (fun a b => b.before.start_pos < a.before.start_pos) :=
    ⟨fun a b h1 h2 => absurd h1 (by omega)⟩
  exact List.eq_of_perm_of_sorted hp hs₁ hs₂

/-! ## Claim C9: the two `apply_indentation` copies agree -/

/-- C9: the copy of `apply_indentation` in `src/search.rs` and the copy in
`src/code_cleaning.rs` are extensionally equal: for every pair of input
strings they return the same output.  (The two Rust sources are textually
identical.) -/
theorem apply_indentation_copies_equal :
    ∀ old_code new_code : List Char,
      Search.apply_indentation old_code new_code =
        CodeCleaning.apply_indentation old_code new_code :=
  fun _ _ => rfl

/-! ## Claim C4: trailing newline of `apply_indentation` -/

/-- C4 counterexample: `apply_indentation("x", "a\n\n\n")` returns
`"a\n\n"`, which ends with two newline characters, so the output does not
always end with exactly one trailing newline. -/
theorem apply_indentation_trailing_newline_cex :
    Search.apply_indentation ['x'] ['a', '\n', '\n', '\n'] =
        some ['a', '\n', '\n'] ∧
      (['a', '\n', '\n'] : List Char).getLast? = some '\n' ∧
      (['a', '\n', '\n'] : List Char).dropLast.getLast? = some '\n' := by
  decide

/-- C4 amended: every string returned by `apply_indentation` ends with at
least one newline character (one is appended when the joined text lacks
one), but it can end with more than one when the replacement's line split
has trailing empty lines. -/
theorem apply_indentation_trailing_newline_amended :
    ∀ old_code new_code res : List Char,
      Search.apply_indentation old_code new_code = some res →
      res.getLast? = some '\n' := by
  intro old_code new_code res h
  simp only [Search.apply_indentation] at h
  cases hi : indentLines (oldIndentOf (rustLines old_code))
      (minIndentOf (rustLines new_code)) (rustLines new_code) with
  | none => rw [hi] at h; exact absurd h (by simp)
  | some mapped =>
    rw [hi] at h
    have hres : ensureTrailingNl (joinNl mapped) = res := by
      injection h
    rw [← hres]
    unfold ensureTrailingNl
    split
    · next hl => exact hl
    · exact List.getLast?_concat _

/-- Witness for C4's amended theorem at a concrete input. -/
theorem apply_indentation_trailing_newline_amended_witness :
    (['a', '\n'] : List Char).getLast? = some '\n' :=
  apply_indentation_trailing_newline_amended ['x'] ['a'] ['a', '\n'] (by decide)

/-! ## Claim C10: the unguarded byte slice is safe for ASCII indentation -/

/-- C10: for every replacement whose lines have only single-byte leading
whitespace, the unguarded slice `line[new_indentation_count..]` in
`apply_indentation` never goes out of bounds or falls off a character
boundary: the function returns a value (it cannot panic). -/
theorem apply_indentation_ascii_safe :
    ∀ old_code new_code : List Char,
      (∀ l ∈ rustLines new_code,
        ∀ c ∈ l.takeWhile rustIsWhitespace, c.utf8Size = 1) →
      (Search.apply_indentation old_code new_code).isSome = true := by
  intro old_code new_code h
  rw [apply_indentation_eq (byteSlice_ok_of_ascii h)]
  rfl

/-- Witness for C10 at a concrete input with ASCII indentation. -/
theorem apply_indentation_ascii_safe_witness :
    (Search.apply_indentation ['x'] [' ', ' ', 'a']).isSome = true :=
  apply_indentation_ascii_safe ['x'] [' ', ' ', 'a'] (by decide)

/-! ## Claim C8: the grammar registry -/

/-- C8 counterexample: the registry does not support the combinations the
spec lists beyond Python{Function, Class} and Rust{Function, Struct, Enum}:
parsing `"Python.Method"` (or `"Rust.Trait"`) yields an error, not a
grammar/pattern pair. -/
theorem registry_unsupported_kind_cex :
    (LanguageItem.from_str "Python.Method").isOk = false ∧
      (LanguageItem.from_str "Rust.Trait").isOk = false := by
  decide

/-- C8 amended: the registry is total over the set it actually supports,
Python{Function, Class} and Rust{Function, Struct, Enum}: every `ProgItem`
has a (nonempty) structural query pattern, every language has a grammar
handle, and combinations outside this set — such as Python.Method or
Rust.Trait — are rejected with an error by the string interface. -/
theorem registry_total_supported_amended :
    (∀ item : ProgItem, item.to_sexpr ≠ "") ∧
      (∀ lang : ProgLanguage,
        lang.tree_sitter_language = Grammar.python ∨
          lang.tree_sitter_language = Grammar.rust) ∧
      (LanguageItem.from_str "Python.Method").isOk = false ∧
      (LanguageItem.from_str "Python.Decorator").isOk = false ∧
      (LanguageItem.from_str "Python.Generator").isOk = false ∧
      (LanguageItem.from_str "Rust.Trait").isOk = false ∧
      (LanguageItem.from_str "Rust.Impl").isOk = false ∧
      (LanguageItem.from_str "Rust.TypeAlias").isOk = false := by
  refine ⟨?_, ?_, by decide, by decide, by decide, by decide, by decide, by decide⟩
  · intro item
    cases item with
    | Rust i => cases i <;> decide
    | Python i => cases i <;> decide
  · intro lang
    cases lang
    · exact Or.inl rfl
    · exact Or.inr rfl

/-! ## Claim C7: capture resolution failures during extraction -/

theorem processNames_error_of_missing_index
    {source filename : List Char} {q : QueryData} {m : QueryMatch} :
    ∀ (names : List String) (name : String), name ∈ names →
      q.captureIndexForName name = none →
      isErrorResult (processNames source filename q m names) = true := by
  intro names
  induction names with
  | nil => intro name h; simp at h
  | cons n rest ih =>
    intro name hmem hidx
    cases hn : q.captureIndexForName n with
    | none => simp [processNames, hn, isErrorResult]
    | some i =>
      have hname : name ∈ rest := by
        rcases List.mem_cons.mp hmem with h1 | h1
        · subst h1; rw [hn] at hidx; exact absurd hidx (by simp)
        · exact h1
      have hr := ih name hname hidx
      cases hf : m.captures.find? (fun c => c.index == i) with
      | none => simp [processNames, hn, hf, hr]
      | some node =>
        cases hres : resolveText source node with
        | none => simp [processNames, hn, hf, hres, isErrorResult]
        | some v =>
          cases hp : processNames source filename q m rest with
          | error e => simp [processNames, hn, hf, hres, hp, isErrorResult]
          | ok items => rw [hp] at hr; exact absurd hr (by simp [isErrorResult])

/-- C7 counterexample: when a match does not contain the named capture at
all, `extract_sexpr_from_string` silently skips the match and returns `Ok`
with no items — it does not fail.  Here the query has one capture name
`"item"` with index 0, and the single match carries no captures. -/
theorem extract_capture_skip_cex :
    extract_sexpr_from_string ['x'] []
      { captureNames := ["item"]
        captureIndexForName := fun n => if n = "item" then some 0 else none }
      [{ captures := [] }] = Except.ok [] := by
  rfl

/-- C7 amended: if a capture name of the query has no associated index
(query/pattern version mismatch), extraction fails with a fatal error for
the whole file as soon as there is at least one match; an unresolvable
captured byte range is likewise fatal.  However, a match that simply does
not contain the named capture is silently skipped (`continue`), not treated
as an error. -/
theorem extract_capture_missing_index_fatal :
    ∀ (source filename : List Char) (q : QueryData) (m : QueryMatch)
      (ms : List QueryMatch) (name : String),
      name ∈ q.captureNames →
      q.captureIndexForName name = none →
      isErrorResult (extract_sexpr_from_string source filename q (m :: ms)) = true := by
  intro source filename q m ms name hmem hidx
  have h := @processNames_error_of_missing_index source filename q m
    q.captureNames name hmem hidx
  unfold extract_sexpr_from_string processMatches
  cases hp : processNames source filename q m q.captureNames with
  | error e => simp [isErrorResult]
  | ok items => rw [hp] at h; exact absurd h (by simp [isErrorResult])

/-- Witness for C7's amended theorem at a concrete input: the query knows
the name `"item"` but has no index for it, and there is one match. -/
theorem extract_capture_missing_index_fatal_witness :
    isErrorResult (extract_sexpr_from_string ['x'] []
      { captureNames := ["item"], captureIndexForName := fun _ => none }
      [{ captures := [] }]) = true :=
  extract_capture_missing_index_fatal ['x'] []
    { captureNames := ["item"], captureIndexForName := fun _ => none }
    { captures := [] } [] "item" (by decide) rfl

/-! ## Claim C5: the extractor's slice and position bookkeeping -/

theorem rfindNl_none {l : List Char} (h : rfindNl l = none) : '\n' ∉ l := by
  induction l with
  | nil => simp
  | cons c rest ih =>
    intro hmem
    unfold rfindNl at h
    cases hr : rfindNl rest with
    | some p => rw [hr] at h; exact absurd h (by simp)
    | none =>
      rw [hr] at h
      rcases List.mem_cons.mp hmem with h1 | h1
      · rw [if_pos h1.symm] at h; exact absurd h (by simp)
      · exact ih hr h1

theorem rfindNl_some {l : List Char} {p : Nat} (h : rfindNl l = some p) :
    p < l.length ∧ l[p]? = some '\n' ∧
      ∀ i, p < i → l[i]? ≠ some '\n' := by
  induction l generalizing p with
  | nil => simp [rfindNl] at h
  | cons c rest ih =>
    unfold rfindNl at h
    cases hr : rfindNl rest with
    | some q =>
      rw [hr] at h
      have hp : p = q + 1 := by
        have := Option.some.inj h
        omega
      subst hp
      rcases ih hr with ⟨h1, h2, h3⟩
      refine ⟨by simp only [List.length_cons]; omega, by simpa using h2, ?_⟩
      intro i hi
      cases i with
      | zero => omega
      | succ j =>
        have : rest[j]? ≠ some '\n' := h3 j (by omega)
        simpa using this
    | none =>
      rw [hr] at h
      by_cases hc : c = '\n'
      · rw [if_pos hc] at h
        have hp : p = 0 := (Option.some.inj h).symm
        subst hp
        refine ⟨by simp, by simpa using hc, ?_⟩
        intro i hi
        cases i with
        | zero => omega
        | succ j =>
          intro hcon
          have hmem : '\n' ∈ rest := by
            apply List.mem_iff_getElem?.mpr
            exact ⟨j, by simpa using hcon⟩
          exact rfindNl_none hr hmem
      · rw [if_neg hc] at h
        exact absurd h (by simp)

theorem lineStartByte_le (source : List Char) (b : Nat) :
    lineStartByte source b ≤ b := by
  unfold lineStartByte
  cases hrf : rfindNl (source.take b) with
  | none => exact Nat.zero_le b
  | some p =>
    rcases rfindNl_some hrf with ⟨h1, _, _⟩
    have : (source.take b).length ≤ b := by simp [List.length_take]
    show p + 1 ≤ b
    omega

theorem lineStartByte_no_nl (source : List Char) (b : Nat) :
    ∀ c ∈ (source.take b).drop (lineStartByte source b), c ≠ '\n' := by
  intro c hc hcn
  subst hcn
  unfold lineStartByte at hc
  cases hrf : rfindNl (source.take b) with
  | none =>
    rw [hrf] at hc
    simp only [List.drop_zero] at hc
    exact rfindNl_none hrf hc
  | some p =>
    rw [hrf] at hc
    rcases rfindNl_some hrf with ⟨h1, h2, h3⟩
    rcases List.mem_iff_getElem?.mp hc with ⟨i, hi⟩
    rw [List.getElem?_drop] at hi
    exact h3 (p + 1 + i) (by omega) hi

theorem lineStartByte_boundary (source : List Char) (b : Nat) :
    lineStartByte source b = 0 ∨
      source[lineStartByte source b - 1]? = some '\n' := by
  unfold lineStartByte
  cases hrf : rfindNl (source.take b) with
  | none => exact Or.inl rfl
  | some p =>
    right
    rcases rfindNl_some hrf with ⟨h1, h2, _⟩
    have hp : (source.take b)[p]? = source[p]? := by
      apply List.getElem?_take_of_lt
      simp only [List.length_take] at h1
      omega
    simp only [Nat.add_sub_cancel]
    rw [← hp]
    exact h2

/-- C5: each `ItemDef` built from a captured node (with the parser's
consistent byte/row data) has: `definition` equal to the source slice from
the start of the line containing the node's start byte through the node's
raw end byte; `start_byte` equal to that line-start offset (at or before
the node start, with no newline in between, and either 0 or just after a
newline); `end_byte` equal to the node's raw end byte (not extended to its
line end); and `start_pos`/`end_pos` equal to the parser's row numbers,
unadjusted. -/
theorem extract_definition_line_aligned :
    ∀ (source filename : List Char) (sb eb srow erow : Nat),
      sb ≤ eb → eb ≤ source.length →
      srow = countNl (source.take sb) → erow = countNl (source.take eb) →
      (mkItemDef source filename sb eb srow erow).start_byte ≤ sb ∧
      (mkItemDef source filename sb eb srow erow).end_byte = eb ∧
      (mkItemDef source filename sb eb srow erow).definition =
        (source.take eb).drop (mkItemDef source filename sb eb srow erow).start_byte ∧
      (∀ c ∈ (source.take sb).drop
          (mkItemDef source filename sb eb srow erow).start_byte, c ≠ '\n') ∧
      ((mkItemDef source filename sb eb srow erow).start_byte = 0 ∨
        source[(mkItemDef source filename sb eb srow erow).start_byte - 1]? =
          some '\n') ∧
      (mkItemDef source filename sb eb srow erow).start_pos =
        countNl (source.take sb) ∧
      (mkItemDef source filename sb eb srow erow).end_pos =
        countNl (source.take eb) := by
  intro source filename sb eb srow erow hse heb hsrow herow
  exact ⟨lineStartByte_le source sb, rfl, rfl, lineStartByte_no_nl source sb,
    lineStartByte_boundary source sb, hsrow, herow⟩

/-- Witness for C5 at a concrete source and node: source `"a\n  bcd\n"`,
node starting mid-line at byte 4 and ending at byte 7, rows 1-1. -/
theorem extract_definition_line_aligned_witness :
    (mkItemDef "a\n  bcd\n".toList "f.py".toList 4 7 1 1).start_byte ≤ 4 ∧
      (mkItemDef "a\n  bcd\n".toList "f.py".toList 4 7 1 1).end_byte = 7 ∧
      (mkItemDef "a\n  bcd\n".toList "f.py".toList 4 7 1 1).definition =
        ("a\n  bcd\n".toList.take 7).drop
          (mkItemDef "a\n  bcd\n".toList "f.py".toList 4 7 1 1).start_byte ∧
      (∀ c ∈ ("a\n  bcd\n".toList.take 4).drop
          (mkItemDef "a\n  bcd\n".toList "f.py".toList 4 7 1 1).start_byte,
        c ≠ '\n') ∧
      ((mkItemDef "a\n  bcd\n".toList "f.py".toList 4 7 1 1).start_byte = 0 ∨
        "a\n  bcd\n".toList[(mkItemDef "a\n  bcd\n".toList "f.py".toList 4 7 1 1).start_byte - 1]? =
            some '\n') ∧
      (mkItemDef "a\n  bcd\n".toList "f.py".toList 4 7 1 1).start_pos =
        countNl ("a\n  bcd\n".toList.take 4) ∧
      (mkItemDef "a\n  bcd\n".toList "f.py".toList 4 7 1 1).end_pos =
        countNl ("a\n  bcd\n".toList.take 7) :=
  extract_definition_line_aligned "a\n  bcd\n".toList "f.py".toList 4 7 1 1
    (by decide) (by decide) (by decide) (by decide)

/-! ## Claim C3: the indentation law -/

theorem oldIndentOf_mem {ls : List (List Char)} {c : Char}
    (h : c ∈ oldIndentOf ls) : ∃ l ∈ ls, c ∈ l := by
  unfold oldIndentOf at h
  cases hh : ((ls.filter (fun l => !isBlank l)).map
      (fun l => l.takeWhile rustIsWhitespace)).head? with
  | none => rw [hh] at h; simp at h
  | some w =>
    rw [hh] at h
    simp only [Option.getD_some] at h
    have hw := List.mem_of_mem_head? (l := (ls.filter (fun l => !isBlank l)).map
      (fun l => l.takeWhile rustIsWhitespace)) (by rw [hh]; rfl)
    rcases List.mem_map.mp hw with ⟨l, hl, rfl⟩
    exact ⟨l, (List.mem_filter.mp hl).1, List.takeWhile_subset _ h⟩

theorem takeWhile_length_lt_of_not_blank {l : List Char} (h : isBlank l = false) :
    (l.takeWhile rustIsWhitespace).length < l.length := by
  have hsub := List.takeWhile_sublist (p := rustIsWhitespace) (l := l)
  have hle := hsub.length_le
  rcases Nat.lt_or_ge (l.takeWhile rustIsWhitespace).length l.length with hlt | hge
  · exact hlt
  · exfalso
    have heq : l.takeWhile rustIsWhitespace = l :=
      hsub.eq_of_length (le_antisymm hle hge)
    have hall : isBlank l = true := by
      unfold isBlank
      apply List.all_eq_true.mpr
      intro c hc
      exact List.mem_takeWhile_imp (heq ▸ hc)
    rw [hall] at h
    exact absurd h (by simp)

theorem drop_min_ne_nil {l : List Char} {cnt : Nat} (h : isBlank l = false)
    (hcnt : cnt ≤ (l.takeWhile rustIsWhitespace).length) : l.drop cnt ≠ [] := by
  have h1 := takeWhile_length_lt_of_not_blank h
  intro hnil
  have h2 := List.drop_eq_nil_iff.mp hnil
  omega

theorem stripCR_append_of_ne_nil {w d : List Char} (hd : d ≠ [])
    (hcr : ∀ c ∈ d, c ≠ '\r') : stripCR (w ++ d) = w ++ d := by
  unfold stripCR
  rw [if_neg]
  intro hcon
  rw [List.getLast?_append_of_ne_nil w hd] at hcon
  exact hcr _ (mem_of_getLast?_eq hcon) rfl

/-- C3 counterexample: with the replacement `"a\r"` the returned string is
`"a\r\n"`, whose single (non-blank) output line is `"a"`, not the line
predicted by the law (`"a\r"` = leading whitespace of the original plus the
replacement line with its base indent of 0 removed): the trailing carriage
return is stripped when the output is split into lines again. -/
theorem apply_indentation_law_cex :
    Search.apply_indentation ['x'] ['a', '\r'] = some ['a', '\r', '\n'] ∧
      isBlank (['a', '\r'] : List Char) = false ∧
      rustLines ['a', '\r'] = [['a', '\r']] ∧
      (rustLines ['a', '\r', '\n'])[0]? ≠
        some (oldIndentOf (rustLines ['x']) ++
          (['a', '\r'].drop (minIndentOf (rustLines ['a', '\r'])))) := by
  decide

/-- C3 amended: the concrete case holds exactly as stated; and the general
law holds for every replacement that is free of carriage returns and whose
lines' leading whitespace is single-byte: each non-blank replacement line
appears in the output at the same index, equal to the original's
first-non-blank-line leading whitespace followed by the line with its base
indent (the minimum leading-whitespace count over non-blank lines)
removed. -/
theorem apply_indentation_law_amended :
    (Search.apply_indentation "    def old():\n        pass\n".toList
        "def new():\n    pass\n".toList
      = some "    def new():\n        pass\n".toList) ∧
    (∀ old_code new_code res : List Char,
      '\r' ∉ new_code →
      (∀ l ∈ rustLines new_code,
        ∀ c ∈ l.takeWhile rustIsWhitespace, c.utf8Size = 1) →
      Search.apply_indentation old_code new_code = some res →
      ∀ (i : Nat) (l : List Char), (rustLines new_code)[i]? = some l →
        isBlank l = false →
        (rustLines res)[i]? =
          some (oldIndentOf (rustLines old_code) ++
            l.drop (minIndentOf (rustLines new_code)))) := by
  refine ⟨by decide, ?_⟩
  intro old_code new_code res hcr hascii happ i l hil hnb
  rw [apply_indentation_eq (byteSlice_ok_of_ascii hascii)] at happ
  have hres : res = ensureTrailingNl (joinNl ((rustLines new_code).map
      (fun l => if isBlank l then l
        else oldIndentOf (rustLines old_code) ++
          l.drop (minIndentOf (rustLines new_code))))) :=
    (Option.some.inj happ).symm
  set W := oldIndentOf (rustLines old_code) with hW
  set cnt := minIndentOf (rustLines new_code) with hcnt
  set mapped := (rustLines new_code).map
    (fun l => if isBlank l then l else W ++ l.drop cnt) with hmapped
  have hWnl : ∀ c ∈ W, c ≠ '\n' := by
    intro c hc
    rcases oldIndentOf_mem hc with ⟨l0, hl0, hcl0⟩
    exact (rustLines_chars l0 hl0 c hcl0).2
  have hnewch : ∀ x ∈ rustLines new_code, ∀ c ∈ x, c ≠ '\n' ∧ c ≠ '\r' := by
    intro x hx c hc
    have h1 := rustLines_chars x hx c hc
    exact ⟨h1.2, fun hcon => hcr (hcon ▸ h1.1)⟩
  have hch : ∀ x ∈ mapped, '\n' ∉ x ∧ stripCR x = x := by
    intro x hx
    rcases List.mem_map.mp hx with ⟨y, hy, rfl⟩
    by_cases hb : isBlank y
    · rw [if_pos hb]
      refine ⟨fun hmem => (hnewch y hy _ hmem).1 rfl, ?_⟩
      exact stripCR_eq_self (fun hmem => (hnewch y hy _ hmem).2 rfl)
    · have hbf : isBlank y = false := by
        cases hq : isBlank y
        · rfl
        · exact absurd hq hb
      have hdne : y.drop cnt ≠ [] :=
        drop_min_ne_nil hbf (minIndentOf_le hy hbf)
      rw [if_neg hb]
      constructor
      · intro hmem
        rcases List.mem_append.mp hmem with h1 | h1
        · exact hWnl _ h1 rfl
        · exact (hnewch y hy _ (List.drop_subset _ _ h1)).1 rfl
      · exact stripCR_append_of_ne_nil hdne
          (fun c hc => (hnewch y hy c (List.drop_subset _ _ hc)).2)
  have hmapped_ne : mapped ≠ [] := by
    intro h0
    have : rustLines new_code = [] := List.map_eq_nil_iff.mp h0
    rw [this] at hil
    simp at hil
  have hD := rustLines_ensure_joinNl hmapped_ne hch
  have hmi : mapped[i]? = some (W ++ l.drop cnt) := by
    rw [hmapped, List.getElem?_map, hil]
    show some (if isBlank l then l else W ++ l.drop cnt) = _
    rw [if_neg (by rw [hnb]; simp)]
  rcases hD with hleft | ⟨hlast2, hright⟩
  · rw [hres, hleft, hmi]
  · have hlmem : l ∈ rustLines new_code := List.getElem?_mem hil
    have hfl_ne : W ++ l.drop cnt ≠ [] := by
      intro hcon
      have hd := drop_min_ne_nil hnb (minIndentOf_le hlmem hnb)
      rcases List.append_eq_nil.mp hcon with ⟨_, h2⟩
      exact hd h2
    have hlen : i < mapped.length := by
      by_contra hge
      rw [List.getElem?_eq_none (by omega)] at hmi
      exact absurd hmi (by simp)
    have hine : i ≠ mapped.length - 1 := by
      intro hcon
      rw [List.getLast?_eq_getElem?, ← hcon, hmi] at hlast2
      exact hfl_ne (Option.some.inj hlast2)
    rw [hres, hright, List.dropLast_eq_take,
      List.getElem?_take_of_lt (by omega), hmi]

/-- Witness for the general law of C3's amended theorem at a concrete
input: original `"    x"`, replacement `"a\n  b"`, line index 1. -/
theorem apply_indentation_law_amended_witness :
    (rustLines "    a\n      b\n".toList)[1]? =
      some (oldIndentOf (rustLines "    x".toList) ++
        ("  b".toList.drop (minIndentOf (rustLines "a\n  b".toList)))) :=
  apply_indentation_law_amended.2 "    x".toList "a\n  b".toList
    "    a\n      b\n".toList (by decide) (by decide) (by decide)
    1 "  b".toList (by decide) (by decide)

/-! ## Claim C2: order independence of `apply_changes` -/

theorem groupByFilename_aux {fname : List Char} :
    ∀ (chs : List ItemChange) (acc : List ItemChange),
      (∀ c ∈ chs, c.before.filename = fname) →
      chs.foldl (fun acc c => addToGroup c.before.filename c acc) [(fname, acc)] =
        [(fname, acc ++ chs)] := by
  intro chs
  induction chs with
  | nil => intro acc _; simp
  | cons c rest ih =>
    intro acc hall
    have hc : c.before.filename = fname := hall c (List.mem_cons_self c rest)
    have hstep : addToGroup c.before.filename c [(fname, acc)] =
        [(fname, acc ++ [c])] := by
      unfold addToGroup
      rw [if_pos hc.symm]
    simp only [List.foldl_cons, hstep]
    rw [ih (acc ++ [c]) (fun x hx => hall x (List.mem_cons_of_mem c hx))]
    simp

theorem groupByFilename_single {fname : List Char} {chs : List ItemChange}
    (hall : ∀ c ∈ chs, c.before.filename = fname) (hne : chs ≠ []) :
    groupByFilename chs = [(fname, chs)] := by
  cases chs with
  | nil => exact absurd rfl hne
  | cons c rest =>
    unfold groupByFilename
    have hc : c.before.filename = fname := hall c (List.mem_cons_self c rest)
    have hstep : addToGroup c.before.filename c [] = [(fname, [c])] := by
      unfold addToGroup
      rw [hc]
    simp only [List.foldl_cons, hstep]
    rw [groupByFilename_aux rest [c] (fun x hx => hall x (List.mem_cons_of_mem c hx))]
    simp

/-- C2: for changes targeting one file whose inclusive line ranges are
pairwise disjoint and in bounds for the file's (apply-time) line count,
`apply_changes` produces the same final state for every permutation of the
input list: the descending sort by `start_pos` makes the application order
canonical. -/
theorem apply_changes_order_independent :
    ∀ (chs chs2 : List ItemChange) (fname content : List Char) (fs : FS),
      fs fname = some content →
      (∀ c ∈ chs, c.before.filename = fname) →
      (∀ c ∈ chs, c.before.start_pos ≤ c.before.end_pos ∧
        c.before.end_pos < (rustLines content).length) →
      chs.Pairwise (fun a b => a.before.end_pos < b.before.start_pos ∨
        b.before.end_pos < a.before.start_pos) →
      chs.Perm chs2 →
      apply_changes chs fs = apply_changes chs2 fs := by
  intro chs chs2 fname content fs hfs hall hvalid hdisj hperm
  cases hc : chs with
  | nil =>
    have h2 : chs2 = [] := (hc ▸ hperm).symm.eq_nil
    rw [h2]
  | cons c rest =>
    subst hc
    have hne2 : chs2 ≠ [] := by
      intro h0
      rw [h0] at hperm
      exact List.cons_ne_nil c rest hperm.eq_nil
    have hall2 : ∀ x ∈ chs2, x.before.filename = fname :=
      fun x hx => hall x (hperm.mem_iff.mpr hx)
    have hg1 : groupByFilename (c :: rest) = [(fname, c :: rest)] :=
      groupByFilename_single hall (List.cons_ne_nil c rest)
    have hg2 : groupByFilename chs2 = [(fname, chs2)] :=
      groupByFilename_single hall2 hne2
    have hkeyne : (c :: rest).Pairwise
        (fun a b => a.before.start_pos ≠ b.before.start_pos) := by
      apply hdisj.imp_of_mem
      intro a b ha hb hab
      rcases hvalid a ha with ⟨h1, _⟩
      rcases hvalid b hb with ⟨h2, _⟩
      rcases hab with h | h <;> omega
    have hsort := sortByStartDesc_eq_of_perm hperm hkeyne
    have happ : applyChangesToFile content (c :: rest) =
        applyChangesToFile content chs2 := by
      unfold applyChangesToFile
      rw [hsort]
    unfold apply_changes
    rw [hg1, hg2]
    simp only [applyGroups, hfs, happ]

/-- Witness for C2 at a concrete input: two disjoint single-line changes on
one two-line file, applied in both orders. -/
theorem apply_changes_order_independent_witness :
    apply_changes
        [⟨⟨['a'], 0, 0, 0, 1, ['f']⟩, ['c']⟩, ⟨⟨['b'], 1, 1, 2, 3, ['f']⟩, ['d']⟩]
        (fun n => if n = ['f'] then some ['a', '\n', 'b', '\n'] else none) =
      apply_changes
        [⟨⟨['b'], 1, 1, 2, 3, ['f']⟩, ['d']⟩, ⟨⟨['a'], 0, 0, 0, 1, ['f']⟩, ['c']⟩]
        (fun n => if n = ['f'] then some ['a', '\n', 'b', '\n'] else none) :=
  apply_changes_order_independent _ _ ['f'] ['a', '\n', 'b', '\n'] _
    (by decide) (by decide) (by decide) (by decide) (by decide)

/-! ## Claim C6: error scoping of `apply_changes` -/

/-- C6 counterexample: with two files `a` and `b`, where reading `a` fails
and `b` holds `"x\n"` with a valid pending change, the run aborts at `a`:
the returned state still has `b` unchanged (`"x\n"`), even though applying
`b`'s change would have produced `"y\n"` — so the changes for the other
file are NOT attempted. -/
theorem apply_changes_error_scope_cex :
    (apply_changes
        [⟨⟨['x'], 0, 0, 0, 1, ['a']⟩, ['y']⟩, ⟨⟨['x'], 0, 0, 0, 1, ['b']⟩, ['y']⟩]
        (fun n => if n = ['b'] then some ['x', '\n'] else none)).1 ['b'] =
      some ['x', '\n'] ∧
    (apply_changes
        [⟨⟨['x'], 0, 0, 0, 1, ['a']⟩, ['y']⟩, ⟨⟨['x'], 0, 0, 0, 1, ['b']⟩, ['y']⟩]
        (fun n => if n = ['b'] then some ['x', '\n'] else none)).2 =
      some (ApplyError.ioError ['a']) ∧
    applyChangesToFile ['x', '\n'] [⟨⟨['x'], 0, 0, 0, 1, ['b']⟩, ['y']⟩] =
      some ['y', '\n'] ∧
    (['y', '\n'] : List Char) ≠ ['x', '\n'] := by
  decide

/-- C6 amended: a failed file read aborts the whole `apply_changes` call at
that point: files processed earlier keep their already-written changes (no
rollback), the error is returned, and files later in the iteration order
are not attempted at all. -/
theorem apply_changes_error_abort_amended :
    ∀ (pre : List (List Char × List ItemChange)) (name : List Char)
      (g : List ItemChange) (post : List (List Char × List ItemChange))
      (fs fs2 : FS),
      applyGroups pre fs = (fs2, none) →
      fs2 name = none →
      applyGroups (pre ++ (name, g) :: post) fs =
        (fs2, some (ApplyError.ioError name)) := by
  intro pre
  induction pre with
  | nil =>
    intro name g post fs fs2 hpre hfail
    have h1 : fs = fs2 := congrArg Prod.fst hpre
    subst h1
    simp only [List.nil_append, applyGroups, hfail]
  | cons hd rest ih =>
    intro name g post fs fs2 hpre hfail
    rcases hd with ⟨hdname, hdchs⟩
    simp only [applyGroups] at hpre
    simp only [List.cons_append, applyGroups]
    cases hread : fs hdname with
    | none =>
      rw [hread] at hpre
      exact absurd (congrArg Prod.snd hpre) (by simp)
    | some contents =>
      rw [hread] at hpre
      have hpre2 : (match applyChangesToFile contents hdchs with
          | none => (fs, some ApplyError.panic)
          | some newContents =>
            applyGroups rest (updateFS fs hdname newContents)) = (fs2, none) := hpre
      cases happ : applyChangesToFile contents hdchs with
      | none =>
        rw [happ] at hpre2
        have hcon := congrArg Prod.snd hpre2
        simp at hcon
      | some nc =>
        rw [happ] at hpre2
        show (match applyChangesToFile contents hdchs with
            | none => (fs, some ApplyError.panic)
            | some newContents =>
              applyGroups (rest ++ (name, g) :: post)
                (updateFS fs hdname newContents)) =
          (fs2, some (ApplyError.ioError name))
        rw [happ]
        exact ih name g post (updateFS fs hdname nc) fs2 hpre2 hfail

/-- Witness for C6's amended theorem: the failing file `a` is first in the
group order; the run stops with its error and the (valid) group for `b` is
left unprocessed. -/
theorem apply_changes_error_abort_amended_witness :
    applyGroups ([] ++ (['a'], [⟨⟨['x'], 0, 0, 0, 1, ['a']⟩, ['y']⟩]) ::
        [(['b'], [⟨⟨['x'], 0, 0, 0, 1, ['b']⟩, ['y']⟩])])
      (fun n => if n = ['b'] then some ['x', '\n'] else none) =
      ((fun n => if n = ['b'] then some ['x', '\n'] else none),
        some (ApplyError.ioError ['a'])) :=
  apply_changes_error_abort_amended [] ['a']
    [⟨⟨['x'], 0, 0, 0, 1, ['a']⟩, ['y']⟩]
    [(['b'], [⟨⟨['x'], 0, 0, 0, 1, ['b']⟩, ['y']⟩])]
    (fun n => if n = ['b'] then some ['x', '\n'] else none)
    (fun n => if n = ['b'] then some ['x', '\n'] else none)
    rfl (by decide)

/-! ## Claim C1: round-trip of extract and apply -/

theorem take_eq_imp_takeWhile_ge {w : List Char} :
    ∀ l : List Char, l.take w.length = w →
      (∀ c ∈ w, rustIsWhitespace c = true) →
      w.length ≤ (l.takeWhile rustIsWhitespace).length := by
  induction w with
  | nil => intro l _ _; simp
  | cons c w' ih =>
    intro l htake hws
    cases l with
    | nil => simp at htake
    | cons d l' =>
      simp only [List.length_cons, List.take_succ_cons] at htake
      have hd : d = c := (List.cons.injEq _ _ _ _ ▸ htake).1
      have ht' : l'.take w'.length = w' := (List.cons.injEq _ _ _ _ ▸ htake).2
      subst hd
      rw [List.takeWhile_cons_of_pos (hws d (List.mem_cons_self _ _))]
      simp only [List.length_cons]
      have := ih l' ht' (fun x hx => hws x (List.mem_cons_of_mem _ hx))
      omega

theorem map_self_of_eq {α : Type} {f : α → α} :
    ∀ {ls : List α}, (∀ x ∈ ls, f x = x) → ls.map f = ls := by
  intro ls
  induction ls with
  | nil => intro _; rfl
  | cons x xs ih =>
    intro h
    simp only [List.map_cons, h x (List.mem_cons_self x xs),
      ih (fun y hy => h y (List.mem_cons_of_mem x hy))]

/-- Re-indenting a definition with itself is the identity (up to the
appended trailing newline), provided every non-blank line extends the first
non-blank line's (single-byte) leading whitespace. -/
theorem apply_indentation_identity {dl : List (List Char)} {defn : List Char}
    (hdlne : dl ≠ [])
    (hlastne : dl.getLast? ≠ some [])
    (hch : ∀ l ∈ dl, '\n' ∉ l ∧ stripCR l = l)
    (hdef : defn = joinNl dl)
    (hweq : ∀ l ∈ dl, isBlank l = false →
      l.take (oldIndentOf dl).length = oldIndentOf dl)
    (hws : ∀ c ∈ oldIndentOf dl, c.utf8Size = 1) :
    Search.apply_indentation defn defn = some (defn ++ ['\n']) := by
  have hrl : rustLines defn = dl := by
    rw [hdef]
    exact rustLines_joinNl hdlne hlastne hch
  have hwsall : ∀ c ∈ oldIndentOf dl, rustIsWhitespace c = true := by
    intro c hc
    unfold oldIndentOf at hc
    cases hh : ((dl.filter (fun l => !isBlank l)).map
        (fun l => l.takeWhile rustIsWhitespace)).head? with
    | none => rw [hh] at hc; simp at hc
    | some w =>
      rw [hh] at hc
      simp only [Option.getD_some] at hc
      have hw := List.mem_of_mem_head? (l := (dl.filter (fun l => !isBlank l)).map
        (fun l => l.takeWhile rustIsWhitespace)) (by rw [hh]; rfl)
      rcases List.mem_map.mp hw with ⟨l0, _, rfl⟩
      exact List.mem_takeWhile_imp hc
  have hmin : minIndentOf dl = (oldIndentOf dl).length := by
    cases hfe : dl.filter (fun l => !isBlank l) with
    | nil =>
      unfold minIndentOf oldIndentOf
      rw [hfe]
      rfl
    | cons l₁ rest =>
      have hl₁f : l₁ ∈ dl.filter (fun l => !isBlank l) := by
        rw [hfe]; exact List.mem_cons_self _ _
      have hl₁mem : l₁ ∈ dl := (List.mem_filter.mp hl₁f).1
      have hl₁nb : isBlank l₁ = false := by
        have := (List.mem_filter.mp hl₁f).2
        simpa using this
      have hWdef : oldIndentOf dl = l₁.takeWhile rustIsWhitespace := by
        unfold oldIndentOf
        rw [hfe]
        rfl
      have h1 : minIndentOf dl ≤ (oldIndentOf dl).length := by
        rw [hWdef]
        exact minIndentOf_le hl₁mem hl₁nb
      have h2 : (oldIndentOf dl).length ≤ minIndentOf dl := by
        unfold minIndentOf
        cases hm : ((dl.filter (fun l => !isBlank l)).map
            (fun l => (l.takeWhile rustIsWhitespace).length)).min? with
        | none =>
          rw [List.min?_eq_none_iff] at hm
          rw [hfe] at hm
          simp at hm
        | some m =>
          simp only [Option.getD_some]
          rcases List.mem_map.mp (List.min?_eq_some_iff'.mp hm).1 with ⟨lm, hlmf, rfl⟩
          have hlmdl : lm ∈ dl := (List.mem_filter.mp hlmf).1
          have hlmnb : isBlank lm = false := by
            have := (List.mem_filter.mp hlmf).2
            simpa using this
          exact take_eq_imp_takeWhile_ge lm (hweq lm hlmdl hlmnb) hwsall
      omega
  have hslice : ∀ l ∈ rustLines defn, isBlank l = false →
      byteSliceFrom l (minIndentOf (rustLines defn)) =
        some (l.drop (minIndentOf (rustLines defn))) := by
    rw [hrl]
    intro l hl hnb
    rw [hmin]
    have htake := hweq l hl hnb
    have hlen : (oldIndentOf dl).length ≤ l.length := by
      have := congrArg List.length htake
      rw [List.length_take] at this
      omega
    exact byteSliceFrom_eq_drop hlen (fun c hc => hws c (htake ▸ hc))
  have hcomp := @apply_indentation_eq defn defn hslice
  rw [hrl, hmin] at hcomp
  have hid : ∀ l ∈ dl, (fun l => if isBlank l then l
      else oldIndentOf dl ++ l.drop (oldIndentOf dl).length) l = l := by
    intro l hl
    by_cases hb : isBlank l
    · simp only [if_pos hb]
    · have hbf : isBlank l = false := by
        cases hq : isBlank l
        · rfl
        · exact absurd hq hb
      simp only [if_neg hb]
      rw [show oldIndentOf dl ++ l.drop (oldIndentOf dl).length =
          l.take (oldIndentOf dl).length ++ l.drop (oldIndentOf dl).length by
        rw [hweq l hl hbf]]
      exact List.take_append_drop _ l
  rw [map_self_of_eq hid, ← hdef] at hcomp
  have hens : ensureTrailingNl defn = defn ++ ['\n'] := by
    apply ensureTrailingNl_of_ne_nl
    obtain ⟨ll, hll⟩ : ∃ ll, dl.getLast? = some ll := by
      cases h : dl.getLast? with
      | none => exact absurd (List.getLast?_eq_none_iff.mp h) hdlne
      | some ll => exact ⟨ll, rfl⟩
    have hllne : ll ≠ [] := fun h0 => hlastne (h0 ▸ hll)
    have hjl := joinNl_getLast hll hllne (fun l hl => (hch l hl).1)
    rw [hdef, hjl]
    intro hcon
    exact (hch ll (mem_of_getLast?_eq hll)).1 (mem_of_getLast?_eq hcon)
  rw [hens] at hcomp
  exact hcomp

theorem applyChangesToFile_single {content ind : List Char} {ch : ItemChange}
    (hse : ch.before.start_pos ≤ ch.before.end_pos)
    (he : ch.before.end_pos < (rustLines content).length)
    (hind : Search.apply_indentation ch.before.definition ch.after = some ind) :
    applyChangesToFile content [ch] =
      some (writeLines (spliceLines (rustLines content) ch.before.start_pos
        ch.before.end_pos (rustLines ind))) := by
  unfold applyChangesToFile
  have hsort : sortByStartDesc [ch] = [ch] := rfl
  rw [hsort]
  show (match applySorted [ch] (rustLines content) with
    | none => none
    | some finalLines => some (writeLines finalLines)) = _
  unfold applySorted
  rw [if_pos ⟨hse, he⟩, hind]
  rfl

/-- C1 counterexample: the Python file `"def f(): pass # tail\n"` with the
`function_definition` node spanning bytes 0-13 (rows 0-0) — the comment
after the construct is on the same line but outside the node.  The
extracted `ItemDef` has `definition = "def f(): pass"`; applying the
change whose `after` equals `before.definition` rewrites the file to
`"def f(): pass\n"`, dropping `" # tail"`: the file is not byte-identical
afterwards. -/
theorem apply_changes_roundtrip_cex :
    ("def f(): pass # tail\n".toList.take 0).count '\n' = 0 ∧
    ("def f(): pass # tail\n".toList.take 13).count '\n' = 0 ∧
    13 ≤ "def f(): pass # tail\n".toList.length ∧
    (mkItemDef "def f(): pass # tail\n".toList ['f'] 0 13 0 0).definition =
      "def f(): pass".toList ∧
    (apply_changes
        [⟨mkItemDef "def f(): pass # tail\n".toList ['f'] 0 13 0 0,
          (mkItemDef "def f(): pass # tail\n".toList ['f'] 0 13 0 0).definition⟩]
        (fun n => if n = ['f'] then some "def f(): pass # tail\n".toList
          else none)).1 ['f'] = some "def f(): pass\n".toList ∧
    ("def f(): pass\n".toList : List Char) ≠ "def f(): pass # tail\n".toList := by
  decide

/-- C1 amended: the round-trip is byte-identical under the conditions the
code actually needs: the file content has no carriage returns and ends with
a newline; the item's definition covers whole lines (it equals the join of
the file's lines from `start_pos` through `end_pos`, so the node's end byte
is at a line end); the definition's last line is nonempty; and every
non-blank line of the definition starts with the first non-blank line's
leading whitespace, which is single-byte.  Then applying the single change
whose `after` equals `before.definition` leaves the file unchanged and
reports no error. -/
theorem apply_changes_roundtrip_amended :
    ∀ (d : ItemDef) (fname content : List Char) (fs : FS),
      fs fname = some content →
      '\r' ∉ content →
      content.getLast? = some '\n' →
      d.filename = fname →
      d.start_pos ≤ d.end_pos →
      d.end_pos < (rustLines content).length →
      d.definition = joinNl (((rustLines content).drop d.start_pos).take
        (d.end_pos + 1 - d.start_pos)) →
      (((rustLines content).drop d.start_pos).take
        (d.end_pos + 1 - d.start_pos)).getLast? ≠ some [] →
      (∀ l ∈ ((rustLines content).drop d.start_pos).take
          (d.end_pos + 1 - d.start_pos), isBlank l = false →
        l.take (oldIndentOf (((rustLines content).drop d.start_pos).take
          (d.end_pos + 1 - d.start_pos))).length =
          oldIndentOf (((rustLines content).drop d.start_pos).take
            (d.end_pos + 1 - d.start_pos))) →
      (∀ c ∈ oldIndentOf (((rustLines content).drop d.start_pos).take
          (d.end_pos + 1 - d.start_pos)), c.utf8Size = 1) →
      (apply_changes [⟨d, d.definition⟩] fs).1 fname = some content ∧
        (apply_changes [⟨d, d.definition⟩] fs).2 = none := by
  intro d fname content fs hfs hcr hend hfn hse he hdef hlastne hweq hws
  have hdlne : (((rustLines content).drop d.start_pos).take
      (d.end_pos + 1 - d.start_pos)) ≠ [] := by
    intro h0
    have hlen := congrArg List.length h0
    rw [List.length_take, List.length_drop] at hlen
    simp only [List.length_nil] at hlen
    omega
  have hdl_sub : ∀ l ∈ ((rustLines content).drop d.start_pos).take
      (d.end_pos + 1 - d.start_pos), l ∈ rustLines content :=
    fun l hl => List.drop_subset _ _ (List.take_subset _ _ hl)
  have hch : ∀ l ∈ ((rustLines content).drop d.start_pos).take
      (d.end_pos + 1 - d.start_pos), '\n' ∉ l ∧ stripCR l = l := by
    intro l hl
    constructor
    · intro hm
      exact (rustLines_chars l (hdl_sub l hl) _ hm).2 rfl
    · exact stripCR_eq_self
        (fun hm => hcr (rustLines_chars l (hdl_sub l hl) _ hm).1)
  have hind := apply_indentation_identity hdlne hlastne hch hdef hweq hws
  have hfile := @applyChangesToFile_single content (d.definition ++ ['\n'])
    ⟨d, d.definition⟩ hse he hind
  have hrepl : rustLines (d.definition ++ ['\n']) =
      ((rustLines content).drop d.start_pos).take (d.end_pos + 1 - d.start_pos) := by
    rw [hdef]
    exact rustLines_joinNl_concat_nl hdlne hch
  rw [hrepl, spliceLines_self hse he, writeLines_rustLines content hcr hend] at hfile
  have hgroup : groupByFilename [⟨d, d.definition⟩] = [(fname, [⟨d, d.definition⟩])] :=
    groupByFilename_single (by intro c hc; rw [List.mem_singleton] at hc; rw [hc]; exact hfn)
      (List.cons_ne_nil _ _)
  unfold apply_changes
  rw [hgroup]
  show ((match fs fname with
    | none => (fs, some (ApplyError.ioError fname))
    | some contents =>
      match applyChangesToFile contents [⟨d, d.definition⟩] with
      | none => (fs, some ApplyError.panic)
      | some newContents => applyGroups [] (updateFS fs fname newContents)).1 fname
        = some content) ∧
    ((match fs fname with
    | none => (fs, some (ApplyError.ioError fname))
    | some contents =>
      match applyChangesToFile contents [⟨d, d.definition⟩] with
      | none => (fs, some ApplyError.panic)
      | some newContents => applyGroups [] (updateFS fs fname newContents)).2 = none)
  rw [hfs]
  show ((match applyChangesToFile content [⟨d, d.definition⟩] with
    | none => (fs, some ApplyError.panic)
    | some newContents => applyGroups [] (updateFS fs fname newContents)).1 fname
      = some content) ∧
    ((match applyChangesToFile content [⟨d, d.definition⟩] with
    | none => (fs, some ApplyError.panic)
    | some newContents => applyGroups [] (updateFS fs fname newContents)).2 = none)
  rw [hfile]
  constructor
  · show (if fname = fname then some content else fs fname) = some content
    rw [if_pos rfl]
  · rfl

/-- Witness for C1's amended theorem: a two-line function occupying whole
lines of a newline-terminated file round-trips byte-identically. -/
theorem apply_changes_roundtrip_amended_witness :
    (apply_changes
        [⟨⟨"def f():\n    pass".toList, 0, 1, 0, 17, ['f']⟩,
          "def f():\n    pass".toList⟩]
        (fun n => if n = ['f'] then some "def f():\n    pass\n".toList
          else none)).1 ['f'] = some "def f():\n    pass\n".toList ∧
      (apply_changes
        [⟨⟨"def f():\n    pass".toList, 0, 1, 0, 17, ['f']⟩,
          "def f():\n    pass".toList⟩]
        (fun n => if n = ['f'] then some "def f():\n    pass\n".toList
          else none)).2 = none :=
  apply_changes_roundtrip_amended
    ⟨"def f():\n    pass".toList, 0, 1, 0, 17, ['f']⟩ ['f']
    "def f():\n    pass\n".toList
    (fun n => if n = ['f'] then some "def f():\n    pass\n".toList else none)
    (by decide) (by decide) (by decide) (by decide) (by decide) (by decide)
    (by decide) (by decide) (by decide) (by decide)
